import Mathlib

/-! Shallow embedding of the EnvVault core (`src/vault-core/src/lib.rs`).

Rust strings are modelled as their lists of UTF-8 bytes (`List Nat`), so the
byte lengths, byte slices and char-boundary checks performed by the Rust code
are explicit.  The SQLite store behind the operations is modelled by `DB`:
the rows of the `secrets` table plus its AUTOINCREMENT sequence value.
Operations that can panic return `Option` (`none` models the panic).  The
operations are modelled on the reachable-store path: `Connection::open` and
statement preparation succeed, which is the path every claim is about
(an unreachable store uniformly yields `false` / empty / `None`).
`CURRENT_TIMESTAMP` is modelled by an explicit `now : Nat` parameter. -/

/-- Bytes of an ASCII string literal.  For ASCII text the UTF-8 bytes
coincide with the code points, so mapping `Char.toNat` is exact. -/
def asciiBytes (s : String) : List Nat := s.toList.map Char.toNat

/-- Row of the `secrets` table: `id INTEGER PRIMARY KEY AUTOINCREMENT`,
`key TEXT NOT NULL UNIQUE`, `value TEXT NOT NULL`, `created_at` and
`updated_at` with `DEFAULT CURRENT_TIMESTAMP` (lib.rs, `init_database`). -/
structure Secret where
  id : Nat
  key : List Nat
  value : List Nat
  created_at : Nat
  updated_at : Nat
deriving DecidableEq

/-- SQLite database state: the stored rows plus the AUTOINCREMENT sequence
value, i.e. the largest id ever assigned (AUTOINCREMENT never reuses ids,
even after a delete or a REPLACE). -/
structure DB where
  secrets : List Secret
  next_id : Nat
deriving DecidableEq

/-- The struct `SecretItem` returned to JavaScript (lib.rs lines 14-19). -/
structure SecretItem where
  id : Nat
  key : List Nat
  value_masked : List Nat
deriving DecidableEq

/-- True for UTF-8 continuation bytes, `0x80 <= b < 0xC0`. -/
def isContinuationByte (b : Nat) : Bool := 128 ≤ b && b < 192

/-- Rust `str::is_char_boundary` at index `i` (used at `i ≤ length` only):
the start, the end, and any non-continuation byte are boundaries. -/
def isCharBoundaryAt (v : List Nat) (i : Nat) : Bool :=
  match v[i]? with
  | none => true
  | some b => !isContinuationByte b

/-- The function `mask_value` (lib.rs lines 55-61).  `value.len()` is the
byte length; 42 is `*` and 46 is `.`.  The slices `&value[..4]` and
`&value[value.len()-4..]` panic when the index is not a char boundary;
the panic is modelled as `none`. -/
def mask_value (v : List Nat) : Option (List Nat) :=
  if v.length ≤ 8 then
    some (List.replicate v.length 42)
  else if isCharBoundaryAt v 4 && isCharBoundaryAt v (v.length - 4) then
    some (v.take 4 ++ [46, 46, 46] ++ v.drop (v.length - 4))
  else
    none

/-- Middle of a value: the bytes strictly between the first four and the
last four, i.e. the part `mask_value` never copies into its output. -/
def midOf (v : List Nat) : List Nat := (v.drop 4).take (v.length - 8)

/-- ASCII case folding as used by SQLite's NOCASE / default `LIKE`:
only A-Z fold, to a-z. -/
def likeFold (b : Nat) : Nat := if 65 ≤ b && b ≤ 90 then b + 32 else b

/-- SQLite `LIKE` over bytes: `%` (byte 37) matches any sequence, `_`
(byte 95) matches one byte, any other byte matches case-insensitively.
Recursion is on the pattern; the `%` case tries every suffix of the text,
which is exactly "match zero or more bytes". -/
def likeMatch : List Nat → List Nat → Bool
  | [], ts => ts.isEmpty
  | p :: ps, ts =>
    if p = 37 then
      ts.tails.any fun s => likeMatch ps s
    else
      match ts with
      | [] => false
      | t :: ts' =>
        if p = 95 then likeMatch ps ts'
        else (likeFold p == likeFold t) && likeMatch ps ts'

/-- Byte-wise lexicographic order: SQLite's BINARY collation (memcmp),
which is what `ORDER BY key ASC` uses for the TEXT column `key`. -/
def lexLe : List Nat → List Nat → Bool
  | [], _ => true
  | _ :: _, [] => false
  | a :: as, b :: bs => a < b || (a == b && lexLe as bs)

/-- Rows in the order produced by `ORDER BY key ASC`. -/
def sortByKey (l : List Secret) : List Secret :=
  l.insertionSort fun a b => lexLe a.key b.key = true

/-- Row-to-item conversion shared by `search_vault` and `get_all_secrets`:
the value is masked; `none` when `mask_value` panics. -/
def toItem (s : Secret) : Option SecretItem :=
  (mask_value s.value).map fun m => ⟨s.id, s.key, m⟩

/-- The function `search_vault` (lib.rs lines 65-94): rows whose key
matches `LIKE '%' ++ query ++ '%'`, ordered by key ascending, first 20,
each carrying a masked value.  `none` models a `mask_value` panic
aborting the whole call. -/
def search_vault (db : DB) (q : List Nat) : Option (List SecretItem) :=
  ((sortByKey (db.secrets.filter fun s => likeMatch (37 :: (q ++ [37])) s.key)).take 20).mapM
    toItem

/-- Definition following the spec's words for `search` (spec section 4.2):
records whose key contains the query as a case-insensitive substring,
ordered by key ascending, capped at 20 results, masked values only.
Written to be compared with `search_vault`. -/
def searchSpec (db : DB) (q : List Nat) : Option (List SecretItem) :=
  ((sortByKey (db.secrets.filter fun s =>
      decide ((q.map likeFold) <:+: (s.key.map likeFold)))).take 20).mapM toItem

/-- The function `get_all_secrets` (lib.rs lines 98-126): all rows ordered
by key ascending, first 50, masked values.  `none` models a `mask_value`
panic aborting the whole call. -/
def get_all_secrets (db : DB) : Option (List SecretItem) :=
  ((sortByKey db.secrets).take 50).mapM toItem

/-- The function `add_secret` (lib.rs lines 147-159) on a reachable store:
`INSERT OR REPLACE INTO secrets (key, value, updated_at) VALUES (?1, ?2,
CURRENT_TIMESTAMP)`.  SQLite's REPLACE deletes every row that would
violate the UNIQUE constraint on `key` and then inserts a brand-new row,
so the new row gets a fresh AUTOINCREMENT id and a fresh `created_at`
default. -/
def add_secret (db : DB) (key value : List Nat) (now : Nat) : DB :=
  { secrets := (db.secrets.filter fun s => !(s.key == key)) ++
      [{ id := db.next_id + 1, key := key, value := value,
         created_at := now, updated_at := now }],
    next_id := db.next_id + 1 }

/-- The function `update_secret` (lib.rs lines 179-191) on a reachable
store.  `conn.execute` returns `Ok(n)` even when `n = 0` rows match the
`WHERE id = ?` clause, so `result.is_ok()` is `true` regardless. -/
def update_secret (db : DB) (id : Nat) (value : List Nat) (now : Nat) : DB × Bool :=
  ({ db with
      secrets := db.secrets.map fun s =>
        if s.id = id then { s with value := value, updated_at := now } else s },
    true)

/-- The function `delete_secret` (lib.rs lines 163-175) on a reachable
store; like `update_secret`, deleting zero rows still yields `true`. -/
def delete_secret (db : DB) (id : Nat) : DB × Bool :=
  ({ db with secrets := db.secrets.filter fun s => !(s.id == id) }, true)

/-- Drop matching bytes from the front. -/
def trimLeftP (p : Nat → Bool) (l : List Nat) : List Nat := l.dropWhile p

/-- Drop matching bytes from the back. -/
def trimRightP (p : Nat → Bool) (l : List Nat) : List Nat :=
  (l.reverse.dropWhile p).reverse

/-- UTF-8 byte sequences of the one-byte Unicode White_Space characters
(tab, LF, VT, FF, CR, space), part of what Rust `char::is_whitespace`
accepts and `str::trim` strips. -/
def ws1Set : List (List Nat) := [[9], [10], [11], [12], [13], [32]]

/-- UTF-8 byte sequences of the two-byte White_Space characters
(U+0085 NEL and U+00A0 NBSP). -/
def ws2Set : List (List Nat) := [[194, 133], [194, 160]]

/-- UTF-8 byte sequences of the three-byte White_Space characters
(U+1680, U+2000 to U+200A, U+2028, U+2029, U+202F, U+205F, U+3000);
together with `ws1Set` and `ws2Set` this is the complete Unicode
White_Space set of Rust `char::is_whitespace`. -/
def ws3Set : List (List Nat) :=
  [[225, 154, 128],
   [226, 128, 128], [226, 128, 129], [226, 128, 130], [226, 128, 131],
   [226, 128, 132], [226, 128, 133], [226, 128, 134], [226, 128, 135],
   [226, 128, 136], [226, 128, 137], [226, 128, 138],
   [226, 128, 168], [226, 128, 169], [226, 128, 175],
   [226, 129, 159], [227, 128, 128]]

/-- Byte length of the leading White_Space character of a UTF-8 byte
string, when there is one (on valid UTF-8, the leading one to three
bytes determine the first character). -/
def wsLead (l : List Nat) : Option Nat :=
  if l.take 1 ∈ ws1Set then some 1
  else if l.take 2 ∈ ws2Set then some 2
  else if l.take 3 ∈ ws3Set then some 3
  else none

/-- The sequences of `ws2Set`, reversed. -/
def ws2RevSet : List (List Nat) := [[133, 194], [160, 194]]

/-- The sequences of `ws3Set`, reversed. -/
def ws3RevSet : List (List Nat) := ws3Set.map List.reverse

/-- Byte length of the trailing White_Space character, read off the
reversed byte string (on valid UTF-8, the last character's bytes can be
recognized from the back: continuation bytes never start a character). -/
def wsLeadRev (l : List Nat) : Option Nat :=
  if l.take 1 ∈ ws1Set then some 1
  else if l.take 2 ∈ ws2RevSet then some 2
  else if l.take 3 ∈ ws3RevSet then some 3
  else none

/-- Repeatedly strip leading characters recognized by the classifier.
Each strip removes at least one byte, so the byte length is enough
fuel. -/
def stripWsFuel (f : List Nat → Option Nat) : Nat → List Nat → List Nat
  | 0, l => l
  | fuel + 1, l =>
    match f l with
    | none => l
    | some n => stripWsFuel f fuel (l.drop n)

/-- Rust `str::trim_start` on UTF-8 bytes: strip the maximal run of
leading White_Space characters. -/
def trimStartWs (l : List Nat) : List Nat := stripWsFuel wsLead l.length l

/-- Rust `str::trim_end` on UTF-8 bytes: strip the maximal run of
trailing White_Space characters, recognized on the reversed bytes. -/
def trimEndWs (l : List Nat) : List Nat :=
  (stripWsFuel wsLeadRev l.reverse.length l.reverse).reverse

/-- Rust `str::trim` on UTF-8 bytes (Unicode White_Space at both ends). -/
def trimWs (l : List Nat) : List Nat := trimEndWs (trimStartWs l)

/-- Rust `str::trim_matches(c)`: repeatedly strips `c` from both ends. -/
def trimChar (c : Nat) (l : List Nat) : List Nat :=
  trimRightP (· == c) (trimLeftP (· == c) l)

/-- The value unquoting of `import_from_env_string` (lib.rs line 211):
`.trim_matches('"').trim_matches('\'')` (34 is `"`, 39 is `'`). -/
def stripQuotes (l : List Nat) : List Nat := trimChar 39 (trimChar 34 l)

/-- Rust `str::split_once(sep)`: split at the first occurrence. -/
def splitOnce (sep : Nat) : List Nat → Option (List Nat × List Nat)
  | [] => none
  | b :: bs =>
    if b = sep then some ([], bs)
    else (splitOnce sep bs).map fun p => (b :: p.1, p.2)

/-- One iteration of the import loop (lib.rs lines 203-222): `none` when
the line is skipped (blank, comment, no `=`, empty key), otherwise the
`(key, value)` pair handed to the insert (35 is `#`, 61 is `=`). -/
def parseEnvLine (line : List Nat) : Option (List Nat × List Nat) :=
  let l := trimWs line
  if l.isEmpty then none
  else if l.head? = some 35 then none
  else
    match splitOnce 61 l with
    | none => none
    | some (k, v) =>
      let k' := trimWs k
      let v' := stripQuotes (trimWs v)
      if k'.isEmpty then none else some (k', v')

/-- Split at byte `sep`, keeping empty pieces (always at least one piece). -/
def splitOnByte (sep : Nat) : List Nat → List (List Nat)
  | [] => [[]]
  | b :: bs =>
    if b = sep then [] :: splitOnByte sep bs
    else
      match splitOnByte sep bs with
      | [] => [[b]]
      | h :: t => (b :: h) :: t

/-- Rust `str::lines`: split on LF, no final empty line for a trailing
newline, and one trailing CR stripped from each line. -/
def rustLines (content : List Nat) : List (List Nat) :=
  let parts := splitOnByte 10 content
  let parts' := if parts.getLast? = some [] then parts.dropLast else parts
  parts'.map fun l => if l.getLast? = some 13 then l.dropLast else l

/-- Import-loop body for one line: parse, then `INSERT OR REPLACE` and
count (on a reachable store the insert succeeds). -/
def importStep (now : Nat) (acc : DB × Nat) (line : List Nat) : DB × Nat :=
  match parseEnvLine line with
  | none => acc
  | some (k, v) => (add_secret acc.1 k v now, acc.2 + 1)

/-- The function `import_from_env_string` (lib.rs lines 195-226) on a
reachable store; returns the updated store and the imported count. -/
def import_from_env_string (db : DB) (content : List Nat) (now : Nat) : DB × Nat :=
  (rustLines content).foldl (importStep now) (db, 0)

/-- Rust `v.replace` of `"` by backslash-quote on bytes (92 is the
backslash). -/
def escapeQuotes : List Nat → List Nat
  | [] => []
  | b :: bs => (if b = 34 then [92, 34] else [b]) ++ escapeQuotes bs

/-- One export line, `KEY="ESCAPED_VALUE"` (lib.rs line 250). -/
def lineOf (s : Secret) : List Nat :=
  s.key ++ 61 :: 34 :: (escapeQuotes s.value ++ [34])

/-- Rust `Vec::join` with a newline separator. -/
def joinNL : List (List Nat) → List Nat
  | [] => []
  | [l] => l
  | l :: ls => l ++ 10 :: joinNL ls

/-- The function `export_to_env_string` (lib.rs lines 230-253) on a
reachable store: all rows ordered by key ascending, one quoted line per
row, joined by newlines with no trailing newline. -/
def export_to_env_string (db : DB) : List Nat :=
  joinNL ((sortByKey db.secrets).map lineOf)

/-- Substring search over bytes, Rust `str::contains` for string
patterns. -/
def containsSeq (pat : List Nat) : List Nat → Bool
  | [] => pat.isEmpty
  | t :: ts => pat.isPrefixOf (t :: ts) || containsSeq pat ts

/-- Number of positions at which `pat` occurs in the text. -/
def countOcc (pat : List Nat) : List Nat → Nat
  | [] => if pat.isEmpty then 1 else 0
  | t :: ts => (if pat.isPrefixOf (t :: ts) then 1 else 0) + countOcc pat ts

/-- The sourcing block `sync_to_shell` appends to shell profiles
(lib.rs line 299). -/
def sourceBlock : List Nat :=
  asciiBytes "\n# EnvVault secrets\n[ -f ~/.envvault ] && source ~/.envvault\n"

/-- First recognized sourcing form of the idempotence guard (lib.rs 306). -/
def guardSource : List Nat := asciiBytes "source ~/.envvault"

/-- Second recognized sourcing form of the idempotence guard. -/
def guardDotSource : List Nat := asciiBytes ". ~/.envvault"

/-- Per-profile transformation performed by `sync_to_shell` (lib.rs lines
301-320): append the sourcing block unless one of the two recognized
sourcing forms already occurs in the profile's content. -/
def sync_profile (c : List Nat) : List Nat :=
  if containsSeq guardSource c || containsSeq guardDotSource c then c
  else c ++ sourceBlock

/-- Key/value pairs held by the store. -/
def pairsOf (db : DB) : List (List Nat × List Nat) :=
  db.secrets.map fun s => (s.key, s.value)

/-- UTF-8 bytes of the Rust string made of `a` followed by five copies of
the two-byte character with bytes 195 169 (a valid Rust `String` of byte
length 11 whose byte index 4 is a continuation byte, not a char
boundary). -/
def badValue : List Nat := [97, 195, 169, 195, 169, 195, 169, 195, 169, 195, 169]

/-- Sufficient conditions on one stored record for its export line to
decode back to the same key/value pair: key nonempty, not starting with
`#`, free of `=` and LF, and neither starting nor ending with a Unicode
White_Space character (so `str::trim` leaves it alone); value free of `"`
and LF and not starting or ending with `'`. -/
def exportSafeB (s : Secret) : Bool :=
  !s.key.isEmpty && s.key.head? != some 35 &&
  s.key.all (fun b => b != 61 && b != 10) &&
  (wsLead s.key).isNone && (wsLeadRev s.key.reverse).isNone &&
  s.value.all (fun b => b != 34 && b != 10) &&
  s.value.head? != some 39 && s.value.getLast? != some 39

/-- C1: the masking examples hold byte-for-byte, but the universal claim
fails: on the storable value `badValue` (the string made of `a` and five
two-byte characters, 11 UTF-8 bytes) `mask_value` panics, because byte
index 4 is not a char boundary, instead of returning a masked string. -/
theorem mask_value_examples_and_panic :
    mask_value (asciiBytes "short") = some (asciiBytes "*****") ∧
    mask_value (asciiBytes "averylongsecretvalue") = some (asciiBytes "aver...alue") ∧
    mask_value badValue = none := by decide

/-- C2: a store holding `badValue` (a valid Rust string) as a secret value
makes `get_all_secrets` and `search_vault` panic inside `mask_value`
(modelled as `none`) instead of returning a value normally. -/
theorem listing_panics_on_unicode_value :
    get_all_secrets ⟨[⟨1, asciiBytes "K", badValue, 0, 0⟩], 1⟩ = none ∧
    search_vault ⟨[⟨1, asciiBytes "K", badValue, 0, 0⟩], 1⟩ (asciiBytes "K") = none := by
  decide

/-- C4 fails as stated: adding key K twice, the surviving row's id goes
from 1 to 2 and its created_at from time 0 to time 1, because
`INSERT OR REPLACE` deletes the old row and inserts a fresh one. -/
theorem add_existing_changes_id_and_created_at :
    ((add_secret ⟨[], 0⟩ (asciiBytes "K") (asciiBytes "v1") 0).secrets.map
      fun s => (s.id, s.created_at)) = [(1, 0)] ∧
    ((add_secret (add_secret ⟨[], 0⟩ (asciiBytes "K") (asciiBytes "v1") 0)
        (asciiBytes "K") (asciiBytes "v2") 1).secrets.map
      fun s => (s.id, s.created_at)) = [(2, 1)] := by decide

/-- C8 fails as stated: with an empty store, no row has id 5, yet
`update_secret` and `delete_secret` both return `true`, not `false`. -/
theorem update_delete_missing_id_cex :
    (update_secret ⟨[], 0⟩ 5 (asciiBytes "v") 0).2 = true ∧
    (delete_secret ⟨[], 0⟩ 5).2 = true := by decide

/-- C5 fails as stated: on the line `K=""x""` the import decodes the value
`x`, stripping both double quotes from each end, not just one (the claim
predicts the value `"x"`). -/
theorem import_strips_all_quotes_cex :
    parseEnvLine (asciiBytes "K=\"\"x\"\"") = some (asciiBytes "K", asciiBytes "x") ∧
    pairsOf (import_from_env_string ⟨[], 0⟩ (asciiBytes "K=\"\"x\"\"") 0).1
      = [(asciiBytes "K", asciiBytes "x")] ∧
    asciiBytes "x" ≠ asciiBytes "\"x\"" := by decide

/-- C6 fails as stated: a store whose single secret has the one-byte value
`'` exports as the line `K="'"`, which the import decodes to the empty
value, so the original pair is absent from the re-imported store. -/
theorem roundtrip_fails_on_quote_value :
    pairsOf (import_from_env_string ⟨[], 0⟩
        (export_to_env_string ⟨[⟨1, asciiBytes "K", asciiBytes "'", 0, 0⟩], 1⟩) 0).1
      = [(asciiBytes "K", [])] ∧
    pairsOf (⟨[⟨1, asciiBytes "K", asciiBytes "'", 0, 0⟩], 1⟩ : DB)
      = [(asciiBytes "K", [39])] ∧
    (asciiBytes "K", [39]) ∉ pairsOf (import_from_env_string ⟨[], 0⟩
        (export_to_env_string ⟨[⟨1, asciiBytes "K", asciiBytes "'", 0, 0⟩], 1⟩) 0).1 := by
  decide

/-- C7 fails as stated: `_` in the query is a LIKE wildcard, so searching
`A_C` returns the stored key `AXC` even though `AXC` does not contain
`A_C` as a (case-insensitive) substring. -/
theorem search_wildcard_cex :
    search_vault ⟨[⟨1, asciiBytes "AXC", asciiBytes "v", 0, 0⟩], 1⟩ (asciiBytes "A_C")
      = some [⟨1, asciiBytes "AXC", asciiBytes "*"⟩] ∧
    ¬ ((asciiBytes "A_C").map likeFold) <:+: ((asciiBytes "AXC").map likeFold) := by
  decide

/-- C10 fails as stated: a profile that already contains two hand-written
`source` lines is left untouched by two invocations, so it ends up with
two sourcing lines and zero sourcing blocks, not exactly one. -/
theorem sync_profile_preseeded_cex :
    sync_profile (sync_profile (asciiBytes "source ~/.envvault\nsource ~/.envvault"))
      = asciiBytes "source ~/.envvault\nsource ~/.envvault" ∧
    countOcc guardSource (asciiBytes "source ~/.envvault\nsource ~/.envvault") = 2 ∧
    countOcc sourceBlock (asciiBytes "source ~/.envvault\nsource ~/.envvault") = 0 := by
  decide

/-- C9 fails as stated: for the 13-byte value `abcdd...eefgh` the middle
is `d...e`, a substring of length 5, and the mask output `abcd...efgh`
contains it. -/
theorem mask_midleak_cex :
    mask_value (asciiBytes "abcdd...eefgh") = some (asciiBytes "abcd...efgh") ∧
    5 ≤ (asciiBytes "d...e").length ∧
    (asciiBytes "d...e") <:+: midOf (asciiBytes "abcdd...eefgh") ∧
    (asciiBytes "d...e") <:+: (asciiBytes "abcd...efgh") := by decide

/-- Adding a key filters out every row with that key and appends the one
fresh row, so filtering the result for that key yields exactly the fresh
row. -/
theorem add_filter_key (db : DB) (k v : List Nat) (now : Nat) :
    ((add_secret db k v now).secrets.filter fun s => s.key == k) =
      [⟨db.next_id + 1, k, v, now, now⟩] := by
  unfold add_secret
  rw [List.filter_append, List.filter_filter]
  have h1 : (db.secrets.filter fun s => (s.key == k) && !(s.key == k)) = [] := by
    exact List.filter_eq_nil_iff.mpr fun a _ => by simp
  rw [h1]
  simp

/-- Keys stay duplicate-free across `add_secret`. -/
theorem nodup_keys_add (db : DB) (k v : List Nat) (now : Nat)
    (h : (db.secrets.map Secret.key).Nodup) :
    ((add_secret db k v now).secrets.map Secret.key).Nodup := by
  unfold add_secret
  rw [List.map_append]
  refine List.Nodup.append ?_ (List.nodup_singleton k) ?_
  · exact h.sublist ((List.filter_sublist _).map Secret.key)
  · intro a ha hk
    simp only [List.map_cons, List.map_nil, List.mem_singleton] at hk
    obtain ⟨s, hs, rfl⟩ := List.mem_map.1 ha
    rw [List.mem_filter] at hs
    have := hs.2
    simp only [Bool.not_eq_true', beq_eq_false_iff_ne] at this
    exact this hk

/-- C3: starting from a store with duplicate-free keys, add(K,V1) then
add(K,V2) keeps keys duplicate-free at both intermediate states (the
store never holds two rows sharing a key) and leaves exactly one row
whose key is K, and its value is V2. -/
theorem add_twice_unique_key (db : DB) (k v1 v2 : List Nat) (t1 t2 : Nat)
    (h : (db.secrets.map Secret.key).Nodup) :
    ((add_secret db k v1 t1).secrets.map Secret.key).Nodup ∧
    ((add_secret (add_secret db k v1 t1) k v2 t2).secrets.map Secret.key).Nodup ∧
    ((add_secret (add_secret db k v1 t1) k v2 t2).secrets.filter
        fun s => s.key == k).map Secret.value = [v2] := by
  refine ⟨nodup_keys_add db k v1 t1 h, nodup_keys_add _ k v2 t2 (nodup_keys_add db k v1 t1 h), ?_⟩
  rw [add_filter_key]
  rfl

/-- Witness for C3 at a concrete store. -/
theorem add_twice_unique_key_witness :
    ((add_secret ⟨[], 0⟩ (asciiBytes "K") (asciiBytes "v1") 0).secrets.map Secret.key).Nodup ∧
    ((add_secret (add_secret ⟨[], 0⟩ (asciiBytes "K") (asciiBytes "v1") 0)
        (asciiBytes "K") (asciiBytes "v2") 1).secrets.map Secret.key).Nodup ∧
    ((add_secret (add_secret ⟨[], 0⟩ (asciiBytes "K") (asciiBytes "v1") 0)
        (asciiBytes "K") (asciiBytes "v2") 1).secrets.filter
        fun s => s.key == asciiBytes "K").map Secret.value = [asciiBytes "v2"] :=
  add_twice_unique_key ⟨[], 0⟩ (asciiBytes "K") (asciiBytes "v1") (asciiBytes "v2") 0 1
    (by decide)

/-- C4 (amended): adding to an existing key K replaces the row: the store
afterwards holds exactly one row for K, whose id is the AUTOINCREMENT
counter plus one — hence different from the replaced row's id — and whose
created_at and updated_at both equal the call's timestamp.  The old id
and created_at are not preserved. -/
theorem add_existing_fresh_row (db : DB) (k v : List Nat) (now : Nat) (s0 : Secret)
    (hWF : ∀ s ∈ db.secrets, s.id ≤ db.next_id) (hs0 : s0 ∈ db.secrets) (_hk : s0.key = k) :
    ((add_secret db k v now).secrets.filter fun s => s.key == k) =
      [⟨db.next_id + 1, k, v, now, now⟩] ∧ db.next_id + 1 ≠ s0.id := by
  refine ⟨add_filter_key db k v now, ?_⟩
  have := hWF s0 hs0
  omega

/-- Witness for C4's amended statement at a concrete store. -/
theorem add_existing_fresh_row_witness :
    ((add_secret ⟨[⟨1, asciiBytes "K", asciiBytes "v1", 0, 0⟩], 1⟩
        (asciiBytes "K") (asciiBytes "v2") 5).secrets.filter
        fun s => s.key == asciiBytes "K") =
      [⟨1 + 1, asciiBytes "K", asciiBytes "v2", 5, 5⟩] ∧ 1 + 1 ≠ 1 :=
  add_existing_fresh_row ⟨[⟨1, asciiBytes "K", asciiBytes "v1", 0, 0⟩], 1⟩
    (asciiBytes "K") (asciiBytes "v2") 5 ⟨1, asciiBytes "K", asciiBytes "v1", 0, 0⟩
    (by decide) (by decide) (by decide)

/-- Mapping a function that fixes every member is the identity. -/
theorem list_map_id_of {α : Type} (f : α → α) (l : List α) (h : ∀ a ∈ l, f a = a) :
    l.map f = l := by
  induction l with
  | nil => rfl
  | cons a l' ih =>
    rw [List.map_cons, h a (List.mem_cons_self a l'),
      ih fun x hx => h x (List.mem_cons_of_mem a hx)]

/-- C8 (amended): on a reachable store, when the id matches no row,
`update_secret` and `delete_secret` still return `true` — matching zero
rows is indistinguishable from success — and leave the store unchanged. -/
theorem update_delete_missing_id_true (db : DB) (i : Nat) (v : List Nat) (now : Nat)
    (h : ∀ s ∈ db.secrets, s.id ≠ i) :
    update_secret db i v now = (db, true) ∧ delete_secret db i = (db, true) := by
  constructor
  · unfold update_secret
    have h1 : (db.secrets.map fun s =>
        if s.id = i then { s with value := v, updated_at := now } else s) = db.secrets := by
      exact list_map_id_of _ db.secrets fun s hs => by rw [if_neg (h s hs)]
    rw [h1]
  · unfold delete_secret
    have h1 : (db.secrets.filter fun s => !(s.id == i)) = db.secrets := by
      refine List.filter_eq_self.mpr fun s hs => ?_
      simp only [Bool.not_eq_eq_eq_not, Bool.not_true, beq_eq_false_iff_ne]
      exact h s hs
    rw [h1]

/-- Witness for C8's amended statement at a concrete store. -/
theorem update_delete_missing_id_true_witness :
    update_secret ⟨[], 0⟩ 5 (asciiBytes "v") 7 = (⟨[], 0⟩, true) ∧
    delete_secret ⟨[], 0⟩ 5 = (⟨[], 0⟩, true) :=
  update_delete_missing_id_true ⟨[], 0⟩ 5 (asciiBytes "v") 7 (by decide)

/-- Head of what dropWhile leaves never satisfies the predicate. -/
theorem head?_dropWhile_false (p : Nat → Bool) (l : List Nat) {x : Nat}
    (h : (l.dropWhile p).head? = some x) : p x = false := by
  have hh := List.head?_dropWhile_not p l
  rw [h] at hh
  exact hh

/-- dropWhile is the identity when the head does not satisfy the
predicate. -/
theorem dropWhile_eq_self_of_head (p : Nat → Bool) (l : List Nat)
    (h : ∀ x, l.head? = some x → p x = false) : l.dropWhile p = l := by
  cases l with
  | nil => rfl
  | cons a l' => exact List.dropWhile_cons_of_neg (by simp [h a rfl])

/-- trimRightP is the identity when the last byte does not satisfy the
predicate. -/
theorem trimRightP_eq_self (p : Nat → Bool) (l : List Nat)
    (h : ∀ x, l.getLast? = some x → p x = false) : trimRightP p l = l := by
  unfold trimRightP
  rw [dropWhile_eq_self_of_head p l.reverse
      (fun x hx => h x (by rwa [List.head?_reverse] at hx)),
    List.reverse_reverse]

/-- What takeWhile keeps for an equality test is a replicate block. -/
theorem takeWhile_beq_replicate (c : Nat) (l : List Nat) :
    l.takeWhile (· == c) = List.replicate (l.takeWhile (· == c)).length c := by
  apply List.eq_replicate_of_mem
  intro b hb
  have := List.mem_takeWhile_imp hb
  simpa using this

/-- Left trim decomposition: the input is a replicate block of the
stripped byte followed by the trimmed remainder. -/
theorem trimLeftP_beq_decomp (c : Nat) (l : List Nat) :
    ∃ a, l = List.replicate a c ++ trimLeftP (· == c) l := by
  refine ⟨(l.takeWhile (· == c)).length, ?_⟩
  conv_lhs => rw [← List.takeWhile_append_dropWhile (· == c) l]
  rw [← takeWhile_beq_replicate]
  rfl

/-- Right trim decomposition: the input is the trimmed remainder followed by
a replicate block of the stripped byte. -/
theorem trimRightP_beq_decomp (c : Nat) (u : List Nat) :
    ∃ b, u = trimRightP (· == c) u ++ List.replicate b c := by
  refine ⟨(u.reverse.takeWhile (· == c)).length, ?_⟩
  have h2 := congrArg List.reverse
    (List.takeWhile_append_dropWhile (· == c) u.reverse)
  rw [List.reverse_append, List.reverse_reverse] at h2
  rw [takeWhile_beq_replicate, List.reverse_replicate] at h2
  exact h2.symm

/-- Rust trim_matches strips a whole replicate block of the character from
each end. -/
theorem trimChar_decomp (c : Nat) (l : List Nat) :
    ∃ a b, l = List.replicate a c ++ trimChar c l ++ List.replicate b c := by
  obtain ⟨a, ha⟩ := trimLeftP_beq_decomp c l
  obtain ⟨b, hb⟩ := trimRightP_beq_decomp c (trimLeftP (· == c) l)
  refine ⟨a, b, ?_⟩
  show l = List.replicate a c ++ trimRightP (· == c) (trimLeftP (· == c) l) ++
    List.replicate b c
  rw [List.append_assoc, ← hb]
  exact ha

/-- After trim_matches the result cannot start with the stripped byte. -/
theorem head?_trimChar_ne (c : Nat) (l : List Nat) : (trimChar c l).head? ≠ some c := by
  intro h
  obtain ⟨b, hb⟩ := trimRightP_beq_decomp c (trimLeftP (· == c) l)
  have hu : (trimLeftP (· == c) l).head? = some c := by
    rw [hb, List.head?_append]
    unfold trimChar at h
    rw [h]
    rfl
  have := head?_dropWhile_false (· == c) l hu
  simp at this

/-- After trim_matches the result cannot end with the stripped byte. -/
theorem getLast?_trimChar_ne (c : Nat) (l : List Nat) : (trimChar c l).getLast? ≠ some c := by
  intro h
  unfold trimChar trimRightP at h
  rw [List.getLast?_reverse] at h
  have := head?_dropWhile_false (· == c) (trimLeftP (· == c) l).reverse h
  simp at this

/-- C5 (amended): the import's value unquoting strips all leading and all
trailing double quotes (not at most one of each), and then independently
all leading and all trailing single quotes: the double-quote stage
decomposes its input into quote blocks around a remainder that neither
starts nor ends with a double quote, and the single-quote stage does the
same to that remainder. -/
theorem stripQuotes_strips_all (w : List Nat) :
    (∃ a b, w = List.replicate a 34 ++ trimChar 34 w ++ List.replicate b 34) ∧
    (trimChar 34 w).head? ≠ some 34 ∧ (trimChar 34 w).getLast? ≠ some 34 ∧
    (∃ a b, trimChar 34 w = List.replicate a 39 ++ stripQuotes w ++ List.replicate b 39) ∧
    (stripQuotes w).head? ≠ some 39 ∧ (stripQuotes w).getLast? ≠ some 39 :=
  ⟨trimChar_decomp 34 w, head?_trimChar_ne 34 w, getLast?_trimChar_ne 34 w,
    trimChar_decomp 39 (trimChar 34 w), head?_trimChar_ne 39 (trimChar 34 w),
    getLast?_trimChar_ne 39 (trimChar 34 w)⟩

/-- Unfolding equation of containsSeq on a cons cell. -/
theorem containsSeq_cons (pat t : List Nat) (x : Nat) :
    containsSeq pat (x :: t) = (pat.isPrefixOf (x :: t) || containsSeq pat t) := rfl

/-- Unfolding equation of countOcc on a cons cell. -/
theorem countOcc_cons (pat t : List Nat) (x : Nat) :
    countOcc pat (x :: t) =
      (if pat.isPrefixOf (x :: t) then 1 else 0) + countOcc pat t := rfl

/-- An occurrence in the right part survives prepending on the left. -/
theorem containsSeq_append_right (pat t1 t2 : List Nat)
    (h : containsSeq pat t2 = true) : containsSeq pat (t1 ++ t2) = true := by
  induction t1 with
  | nil => simpa using h
  | cons x t1' ih => rw [List.cons_append, containsSeq_cons, ih, Bool.or_true]

/-- A short enough pattern that starts an appended list starts its first
part. -/
theorem pre_append_of_le (pat a r : List Nat) (h : pat <+: a ++ r)
    (hle : pat.length ≤ a.length) : pat <+: a := by
  rw [ List.prefix_iff_eq_take] at h ⊢
  rw [List.take_append_of_le_length hle] at h
  exact h

/-- A pattern that starts an appended list and overruns the first part
contains the first byte of the second part. -/
theorem byte_at_of_pre (pat a r : List Nat) (h : pat <+: a ++ r)
    (hgt : a.length < pat.length) : pat[a.length]? = r[0]? := by
  obtain ⟨t, ht⟩ := h
  have h2 := congrArg (fun l : List Nat => l[a.length]?) ht
  simp only at h2
  rw [List.getElem?_append_left hgt, List.getElem?_append_right (Nat.le_refl _),
    Nat.sub_self] at h2
  exact h2

/-- Counting occurrences of a newline-free pattern across an append whose
left part is occurrence-free and whose right part starts with a newline:
no occurrence can sit inside or span out of the left part. -/
theorem countOcc_append_no_span (pat c r : List Nat) (hpat10 : 10 ∉ pat)
    (hr : r[0]? = some 10) (hc : containsSeq pat c = false) :
    countOcc pat (c ++ r) = countOcc pat r := by
  induction c with
  | nil => rfl
  | cons x c' ih =>
    rw [containsSeq_cons, Bool.or_eq_false_iff] at hc
    rw [List.cons_append, countOcc_cons]
    have hnp : pat.isPrefixOf (x :: (c' ++ r)) = false := by
      rw [Bool.eq_false_iff]
      intro hcon
      rw [ List.isPrefixOf_iff_prefix] at hcon
      rw [show x :: (c' ++ r) = (x :: c') ++ r from rfl] at hcon
      by_cases hlen : pat.length ≤ (x :: c').length
      · have hpre := pre_append_of_le pat (x :: c') r hcon hlen
        have : pat.isPrefixOf (x :: c') = true := by
          rw [ List.isPrefixOf_iff_prefix]
          exact hpre
        rw [hc.1] at this
        cases this
      · push_neg at hlen
        have hb := byte_at_of_pre pat (x :: c') r hcon hlen
        rw [hr] at hb
        exact hpat10 (List.getElem?_mem hb)
    rw [hnp, ih hc.2]
    simp

/-- C10 (amended): the per-profile transformation of `sync_to_shell` is
idempotent — a second invocation never changes the profile, because the
appended block contains the guarded sourcing form — and a profile that
contained no recognized sourcing form beforehand ends up with exactly one
occurrence of the sourcing line after two invocations. -/
theorem sync_profile_idempotent (c : List Nat) :
    sync_profile (sync_profile c) = sync_profile c ∧
    ((containsSeq guardSource c || containsSeq guardDotSource c) = false →
      countOcc guardSource (sync_profile (sync_profile c)) = 1) := by
  have hsb : containsSeq guardSource sourceBlock = true := by decide
  have hgrow : ∀ d : List Nat,
      (containsSeq guardSource (d ++ sourceBlock) ||
        containsSeq guardDotSource (d ++ sourceBlock)) = true := by
    intro d
    rw [containsSeq_append_right guardSource d sourceBlock hsb, Bool.true_or]
  constructor
  · by_cases hg : (containsSeq guardSource c || containsSeq guardDotSource c) = true
    · unfold sync_profile
      rw [if_pos hg, if_pos hg]
    · unfold sync_profile
      rw [if_neg hg, if_pos (hgrow c)]
  · intro hgf
    have hg : ¬ (containsSeq guardSource c || containsSeq guardDotSource c) = true := by
      rw [hgf]
      simp
    unfold sync_profile
    rw [if_neg hg, if_pos (hgrow c)]
    rw [Bool.or_eq_false_iff] at hgf
    rw [countOcc_append_no_span guardSource c sourceBlock (by decide) (by decide) hgf.1]
    decide

/-- Witness for C10's amended statement: starting from an empty profile,
two invocations leave exactly one sourcing line. -/
theorem sync_profile_idempotent_witness :
    countOcc guardSource (sync_profile (sync_profile [])) = 1 :=
  (sync_profile_idempotent []).2 (by decide)

/-- Every window of five or more bytes of a masked output hits one of the
three dots: a dot-free list of length at least 5 cannot sit inside
first4 ++ dots ++ last4. -/
theorem no_dotfree_in_masked (f l s t1 t2 : List Nat) (hf : f.length = 4) (hl : l.length = 4)
    (hs : 5 ≤ s.length) (hdot : 46 ∉ s)
    (heq : t1 ++ (s ++ t2) = f ++ 46 :: 46 :: 46 :: l) : False := by
  have hlen := congrArg List.length heq
  simp only [List.length_append, List.length_cons, hf, hl] at hlen
  apply hdot
  by_cases hc : t1.length ≤ 4
  · have h1 : (t1 ++ (s ++ t2))[4]? = s[4 - t1.length]? := by
      rw [List.getElem?_append_right hc, List.getElem?_append_left (by omega)]
    have h3 : (f ++ 46 :: 46 :: 46 :: l)[4]? = some 46 := by
      rw [List.getElem?_append_right (by omega), hf]
      rfl
    rw [heq, h3] at h1
    exact List.getElem?_mem h1.symm
  · push_neg at hc
    have h1 : (t1 ++ (s ++ t2))[t1.length]? = s[0]? := by
      rw [List.getElem?_append_right (Nat.le_refl _), Nat.sub_self,
        List.getElem?_append_left (by omega)]
    have h3 : (f ++ 46 :: 46 :: 46 :: l)[t1.length]? = some 46 := by
      rw [List.getElem?_append_right (by omega)]
      have h4 : t1.length - f.length = 1 ∨ t1.length - f.length = 2 := by
        rw [hf]
        omega
      rcases h4 with h4 | h4 <;> rw [h4] <;> simp
    rw [heq, h3] at h1
    exact List.getElem?_mem h1.symm

/-- C9 (amended): whenever `mask_value` returns, its output contains no
dot-free contiguous substring of length at least 5 taken from the middle
of the value (every five-byte window of the output crosses the literal
dots, so only middle fragments containing `.` can ever reappear), and a
value of byte length at most 8 is fully redacted to asterisks. -/
theorem mask_no_dotfree_midleak :
    (∀ v out s, mask_value v = some out → 5 ≤ s.length → 46 ∉ s →
      s <:+: midOf v → ¬ s <:+: out) ∧
    (∀ v, v.length ≤ 8 → mask_value v = some (List.replicate v.length 42)) := by
  constructor
  · intro v out s hm hs hdot hmid hinf
    by_cases hlen : v.length ≤ 8
    · have hmid0 : midOf v = [] := by
        unfold midOf
        have h0 : v.length - 8 = 0 := by omega
        rw [h0, List.take_zero]
      rw [hmid0] at hmid
      obtain ⟨u1, u2, hu⟩ := hmid
      have := congrArg List.length hu
      simp only [List.length_append, List.length_nil] at this
      omega
    · unfold mask_value at hm
      rw [if_neg hlen] at hm
      by_cases hb : (isCharBoundaryAt v 4 && isCharBoundaryAt v (v.length - 4)) = true
      · rw [if_pos hb] at hm
        have hout := Option.some.inj hm
        rw [List.append_assoc] at hout
        simp only [List.cons_append, List.nil_append] at hout
        obtain ⟨u1, u2, hu⟩ := hinf
        rw [List.append_assoc, ← hout] at hu
        exact no_dotfree_in_masked (v.take 4) (v.drop (v.length - 4)) s u1 u2
          (by rw [List.length_take]; omega) (by rw [List.length_drop]; omega) hs hdot hu
      · rw [if_neg hb] at hm
        exact Option.noConfusion hm
  · intro v h
    unfold mask_value
    rw [if_pos h]

/-- Witness for C9's amended statement: the dot-free middle `XYZVW` of a
thirteen-byte value does not occur in the mask output. -/
theorem mask_no_dotfree_midleak_witness :
    ¬ (asciiBytes "XYZVW") <:+: (asciiBytes "abcd...efgh") :=
  mask_no_dotfree_midleak.1 (asciiBytes "abcdXYZVWefgh") (asciiBytes "abcd...efgh")
    (asciiBytes "XYZVW") (by decide) (by decide) (by decide) (by decide)

/-- Unfolding equation of likeMatch on a cons pattern. -/
theorem likeMatch_cons (p : Nat) (ps ts : List Nat) :
    likeMatch (p :: ps) ts =
      if p = 37 then ts.tails.any fun s => likeMatch ps s
      else
        match ts with
        | [] => false
        | t :: ts' =>
          if p = 95 then likeMatch ps ts'
          else (likeFold p == likeFold t) && likeMatch ps ts' := rfl

/-- A leading percent matches exactly when the rest of the pattern matches
some suffix of the text. -/
theorem likeMatch_pct_iff (ps ts : List Nat) :
    likeMatch (37 :: ps) ts = true ↔ ∃ n, likeMatch ps (ts.drop n) = true := by
  rw [likeMatch_cons, if_pos rfl, List.any_eq_true]
  constructor
  · rintro ⟨x, hx, hpx⟩
    rw [List.mem_tails] at hx
    obtain ⟨pre, hpre⟩ := hx
    refine ⟨pre.length, ?_⟩
    rw [← hpre, List.drop_left]
    exact hpx
  · rintro ⟨n, hn⟩
    exact ⟨ts.drop n, (List.mem_tails _ _).mpr (List.drop_suffix n ts), hn⟩

/-- Unfolding of likeMatch for an ordinary pattern byte on empty text. -/
theorem likeMatch_cons_nil (p : Nat) (ps : List Nat) (h37 : p ≠ 37) :
    likeMatch (p :: ps) [] = false := by
  rw [likeMatch_cons, if_neg h37]

/-- Unfolding of likeMatch for an ordinary pattern byte on nonempty text. -/
theorem likeMatch_cons_cons (p : Nat) (ps : List Nat) (t : Nat) (ts : List Nat)
    (h37 : p ≠ 37) (h95 : p ≠ 95) :
    likeMatch (p :: ps) (t :: ts) = ((likeFold p == likeFold t) && likeMatch ps ts) := by
  rw [likeMatch_cons, if_neg h37]
  show (if p = 95 then likeMatch ps ts
    else (likeFold p == likeFold t) && likeMatch ps ts) = _
  rw [if_neg h95]

/-- A wildcard-free pattern followed by a final percent matches exactly
when the folded pattern is a prefix of the folded text. -/
theorem likeMatch_lit_end (q : List Nat) (hq : ∀ b ∈ q, b ≠ 37 ∧ b ≠ 95) :
    ∀ ts : List Nat,
      (likeMatch (q ++ [37]) ts = true ↔ (q.map likeFold) <+: (ts.map likeFold)) := by
  induction q with
  | nil =>
    intro ts
    simp only [List.nil_append, List.map_nil]
    rw [likeMatch_cons, if_pos rfl, List.any_eq_true]
    constructor
    · intro _
      exact List.nil_prefix
    · intro _
      exact ⟨[], (List.mem_tails _ _).mpr List.nil_suffix, rfl⟩
  | cons p q' ih =>
    intro ts
    have hp := hq p (List.mem_cons_self p q')
    rw [List.cons_append]
    cases ts with
    | nil =>
      rw [likeMatch_cons_nil _ _ hp.1]
      simp
    | cons t ts' =>
      rw [likeMatch_cons_cons p _ t ts' hp.1 hp.2, Bool.and_eq_true, beq_iff_eq,
        ih (fun b hb => hq b (List.mem_cons_of_mem p hb)) ts']
      simp only [List.map_cons]
      rw [List.cons_prefix_cons]

/-- containsSeq finds exactly the prefixes of suffixes. -/
theorem containsSeq_iff_exists (pat ts : List Nat) :
    containsSeq pat ts = true ↔ ∃ n, pat <+: ts.drop n := by
  induction ts with
  | nil =>
    rw [show containsSeq pat [] = pat.isEmpty from rfl, List.isEmpty_iff]
    constructor
    · rintro rfl
      exact ⟨0, List.nil_prefix⟩
    · rintro ⟨n, hn⟩
      rw [List.drop_nil] at hn
      exact List.prefix_nil.mp hn
  | cons t ts' ih =>
    rw [containsSeq_cons, Bool.or_eq_true, ih]
    constructor
    · rintro (h | ⟨n, hn⟩)
      · exact ⟨0, by rw [List.drop_zero]; exact List.isPrefixOf_iff_prefix.mp h⟩
      · exact ⟨n + 1, by rw [List.drop_succ_cons]; exact hn⟩
    · rintro ⟨n, hn⟩
      cases n with
      | zero =>
        left
        rw [List.drop_zero] at hn
        exact List.isPrefixOf_iff_prefix.mpr hn
      | succ m =>
        right
        exact ⟨m, by rwa [List.drop_succ_cons] at hn⟩

/-- For a wildcard-free query, the LIKE pattern percent-query-percent holds
exactly when the case-folded query is a contiguous substring of the
case-folded key. -/
theorem likeMatch_wildcard_free (q key : List Nat) (hq : ∀ b ∈ q, b ≠ 37 ∧ b ≠ 95) :
    likeMatch (37 :: (q ++ [37])) key =
      decide ((q.map likeFold) <:+: (key.map likeFold)) := by
  rw [Bool.eq_iff_iff, decide_eq_true_iff, likeMatch_pct_iff]
  constructor
  · rintro ⟨n, hn⟩
    rw [likeMatch_lit_end q hq] at hn
    rw [List.map_drop] at hn
    exact List.infix_iff_prefix_suffix.mpr
      ⟨(key.map likeFold).drop n, hn, List.drop_suffix n (key.map likeFold)⟩
  · intro h
    obtain ⟨t, hpre, hsuf⟩ := List.infix_iff_prefix_suffix.mp h
    obtain ⟨pre, hpre2⟩ := hsuf
    refine ⟨pre.length, ?_⟩
    rw [likeMatch_lit_end q hq, List.map_drop, ← hpre2, List.drop_left]
    exact hpre

/-- C7 (amended): for every query free of the LIKE wildcards percent and
underscore, `search_vault` returns exactly what the spec describes —
`searchSpec`: the records whose key contains the query as a
case-insensitive substring, ordered by key ascending, capped at 20,
masked values only. -/
theorem search_matches_spec (db : DB) (q : List Nat)
    (h37 : 37 ∉ q) (h95 : 95 ∉ q) :
    search_vault db q = searchSpec db q := by
  unfold search_vault searchSpec
  have hf : (db.secrets.filter fun s => likeMatch (37 :: (q ++ [37])) s.key) =
      db.secrets.filter fun s => decide ((q.map likeFold) <:+: (s.key.map likeFold)) :=
    List.filter_congr fun s _ =>
      likeMatch_wildcard_free q s.key
        (fun b hb => ⟨fun h => h37 (h ▸ hb), fun h => h95 (h ▸ hb)⟩)
  rw [hf]

/-- Witness for C7's amended statement: searching `key` against the stored
key `MY_KEY_1`, the implementation and the spec-side definition agree. -/
theorem search_matches_spec_witness :
    search_vault ⟨[⟨1, asciiBytes "MY_KEY_1", asciiBytes "secret99", 0, 0⟩], 1⟩
        (asciiBytes "key")
      = searchSpec ⟨[⟨1, asciiBytes "MY_KEY_1", asciiBytes "secret99", 0, 0⟩], 1⟩
        (asciiBytes "key") :=
  search_matches_spec ⟨[⟨1, asciiBytes "MY_KEY_1", asciiBytes "secret99", 0, 0⟩], 1⟩
    (asciiBytes "key") (by decide) (by decide)

/-- Unfolding equation of splitOnce on a cons cell. -/
theorem splitOnce_cons (sep b : Nat) (bs : List Nat) :
    splitOnce sep (b :: bs) =
      if b = sep then some ([], bs)
      else (splitOnce sep bs).map fun p => (b :: p.1, p.2) := rfl

/-- split_once finds the first separator. -/
theorem splitOnce_append (sep : Nat) (k rest : List Nat) (h : sep ∉ k) :
    splitOnce sep (k ++ sep :: rest) = some (k, rest) := by
  induction k with
  | nil =>
    rw [List.nil_append, splitOnce_cons, if_pos rfl]
  | cons b bs ih =>
    have hb : b ≠ sep := fun hbe => h (hbe ▸ List.mem_cons_self b bs)
    rw [List.cons_append, splitOnce_cons, if_neg hb,
      ih fun hm => h (List.mem_cons_of_mem b hm)]
    rfl

/-- Unfolding equation of splitOnByte on a cons cell. -/
theorem splitOnByte_cons (sep b : Nat) (bs : List Nat) :
    splitOnByte sep (b :: bs) =
      if b = sep then [] :: splitOnByte sep bs
      else
        match splitOnByte sep bs with
        | [] => [[b]]
        | h :: t => (b :: h) :: t := rfl

/-- Splitting a separator-free list yields the single piece. -/
theorem splitOnByte_no_sep (sep : Nat) (l : List Nat) (h : sep ∉ l) :
    splitOnByte sep l = [l] := by
  induction l with
  | nil => rfl
  | cons b bs ih =>
    have hb : b ≠ sep := fun hbe => h (hbe ▸ List.mem_cons_self b bs)
    rw [splitOnByte_cons, if_neg hb, ih fun hm => h (List.mem_cons_of_mem b hm)]

/-- Splitting peels off a separator-free first piece. -/
theorem splitOnByte_append (sep : Nat) (l rest : List Nat) (h : sep ∉ l) :
    splitOnByte sep (l ++ sep :: rest) = l :: splitOnByte sep rest := by
  induction l with
  | nil =>
    rw [List.nil_append, splitOnByte_cons, if_pos rfl]
  | cons b bs ih =>
    have hb : b ≠ sep := fun hbe => h (hbe ▸ List.mem_cons_self b bs)
    rw [List.cons_append, splitOnByte_cons, if_neg hb,
      ih fun hm => h (List.mem_cons_of_mem b hm)]

/-- Unfolding equation of joinNL on two or more lines. -/
theorem joinNL_cons_cons (l l' : List Nat) (ls : List (List Nat)) :
    joinNL (l :: l' :: ls) = l ++ 10 :: joinNL (l' :: ls) := rfl

/-- Splitting a newline join of newline-free lines recovers the lines. -/
theorem splitOnByte_joinNL (ls : List (List Nat)) (h : ∀ l ∈ ls, (10 : Nat) ∉ l)
    (hne : ls ≠ []) : splitOnByte 10 (joinNL ls) = ls := by
  induction ls with
  | nil => exact absurd rfl hne
  | cons l ls' ih =>
    cases ls' with
    | nil => exact splitOnByte_no_sep 10 l (h l (List.mem_cons_self l []))
    | cons l2 ls'' =>
      rw [joinNL_cons_cons, splitOnByte_append 10 l _ (h l (List.mem_cons_self l _)),
        ih (fun x hx => h x (List.mem_cons_of_mem l hx)) (List.cons_ne_nil l2 ls'')]

/-- Rust lines applied to a newline join of newline-free, nonempty,
CR-free lines recovers exactly the lines. -/
theorem rustLines_joinNL (ls : List (List Nat))
    (h : ∀ l ∈ ls, (10 : Nat) ∉ l ∧ l ≠ [] ∧ l.getLast? ≠ some 13) :
    rustLines (joinNL ls) = ls := by
  cases ls with
  | nil => rfl
  | cons l0 ls0 =>
    simp only [rustLines]
    rw [splitOnByte_joinNL _ (fun x hx => (h x hx).1) (List.cons_ne_nil l0 ls0)]
    have hlast : ¬ (l0 :: ls0).getLast? = some [] := by
      intro hcon
      exact (h [] (List.mem_of_getLast?_eq_some hcon)).2.1 rfl
    rw [if_neg hlast]
    exact list_map_id_of _ (l0 :: ls0) fun x hx => by rw [if_neg (h x hx).2.2]

/-- Escaping is the identity on quote-free values. -/
theorem escapeQuotes_eq_self (v : List Nat) (h : ∀ b ∈ v, b ≠ 34) :
    escapeQuotes v = v := by
  induction v with
  | nil => rfl
  | cons b bs ih =>
    show (if b = 34 then [92, 34] else [b]) ++ escapeQuotes bs = b :: bs
    rw [if_neg (h b (List.mem_cons_self b bs)),
      ih fun x hx => h x (List.mem_cons_of_mem b hx)]
    rfl

/-- Take of one from a cons. -/
theorem take_one_cons (a : Nat) (l : List Nat) : (a :: l).take 1 = [a] := rfl

/-- Take of two from a cons. -/
theorem take_two_cons_gen (a : Nat) (l : List Nat) : (a :: l).take 2 = a :: l.take 1 := rfl

/-- Take of three from a cons. -/
theorem take_three_cons_gen (a : Nat) (l : List Nat) : (a :: l).take 3 = a :: l.take 2 := rfl

/-- Take of two from two conses. -/
theorem take_two_cons (a b : Nat) (l : List Nat) : (a :: b :: l).take 2 = [a, b] := rfl

/-- Take of three from two conses. -/
theorem take_three_cons2_gen (a b : Nat) (l : List Nat) :
    (a :: b :: l).take 3 = a :: b :: l.take 1 := rfl

/-- Take of three from three conses. -/
theorem take_three_cons (a b c : Nat) (l : List Nat) :
    (a :: b :: c :: l).take 3 = [a, b, c] := rfl

/-- Assemble wsLead = none from its three rejected memberships. -/
theorem wsLead_eq_none_of (k : List Nat) (c1 : ¬ k.take 1 ∈ ws1Set)
    (c2 : ¬ k.take 2 ∈ ws2Set) (c3 : ¬ k.take 3 ∈ ws3Set) : wsLead k = none := by
  unfold wsLead
  rw [if_neg c1, if_neg c2, if_neg c3]

/-- Assemble wsLeadRev = none from its three rejected memberships. -/
theorem wsLeadRev_eq_none_of (k : List Nat) (c1 : ¬ k.take 1 ∈ ws1Set)
    (c2 : ¬ k.take 2 ∈ ws2RevSet) (c3 : ¬ k.take 3 ∈ ws3RevSet) :
    wsLeadRev k = none := by
  unfold wsLeadRev
  rw [if_neg c1, if_neg c2, if_neg c3]

/-- Extract the three rejected memberships from wsLead = none. -/
theorem wsLead_none_parts (k : List Nat) (h : wsLead k = none) :
    ¬ (k.take 1 ∈ ws1Set) ∧ ¬ (k.take 2 ∈ ws2Set) ∧ ¬ (k.take 3 ∈ ws3Set) := by
  unfold wsLead at h
  by_cases c1 : k.take 1 ∈ ws1Set
  · rw [if_pos c1] at h
    exact Option.noConfusion h
  · rw [if_neg c1] at h
    by_cases c2 : k.take 2 ∈ ws2Set
    · rw [if_pos c2] at h
      exact Option.noConfusion h
    · rw [if_neg c2] at h
      by_cases c3 : k.take 3 ∈ ws3Set
      · rw [if_pos c3] at h
        exact Option.noConfusion h
      · exact ⟨c1, c2, c3⟩

/-- No White_Space character starts at a byte that begins none of their
encodings. -/
theorem wsLead_none_of_head (b : Nat) (r : List Nat)
    (hb : ¬ b ∈ ([9, 10, 11, 12, 13, 32, 194, 225, 226, 227] : List Nat)) :
    wsLead (b :: r) = none := by
  simp only [List.mem_cons, List.not_mem_nil, or_false, not_or] at hb
  obtain ⟨h9, h10, h11, h12, h13, h32, h194, h225, h226, h227⟩ := hb
  refine wsLead_eq_none_of _ ?_ ?_ ?_
  · rw [take_one_cons]
    simp [ws1Set, h9, h10, h11, h12, h13, h32]
  · rw [take_two_cons_gen]
    simp [ws2Set, h194]
  · rw [take_three_cons_gen]
    simp [ws3Set, h225, h226, h227]

/-- No White_Space character starts when the second byte continues none of
their encodings. -/
theorem wsLead_none_of_second (a b : Nat) (r : List Nat)
    (h1 : ¬ [a] ∈ ws1Set)
    (hb : ¬ b ∈ ([133, 160, 154, 128, 129] : List Nat)) :
    wsLead (a :: b :: r) = none := by
  simp only [List.mem_cons, List.not_mem_nil, or_false, not_or] at hb
  obtain ⟨h133, h160, h154, h128, h129⟩ := hb
  refine wsLead_eq_none_of _ ?_ ?_ ?_
  · rw [take_one_cons]
    exact h1
  · rw [take_two_cons]
    simp [ws2Set, h133, h160]
  · rw [take_three_cons2_gen]
    simp [ws3Set, h154, h128, h129]

/-- No White_Space character starts when the third byte finishes none of
their encodings. -/
theorem wsLead_none_of_third (a b c : Nat) (r : List Nat)
    (h1 : ¬ [a] ∈ ws1Set) (h2 : ¬ [a, b] ∈ ws2Set)
    (hc : ¬ c ∈ ([128, 129, 130, 131, 132, 133, 134, 135, 136, 137, 138,
      168, 169, 175, 159] : List Nat)) :
    wsLead (a :: b :: c :: r) = none := by
  simp only [List.mem_cons, List.not_mem_nil, or_false, not_or] at hc
  obtain ⟨u1, u2, u3, u4, u5, u6, u7, u8, u9, u10, u11, u12, u13, u14, u15⟩ := hc
  refine wsLead_eq_none_of _ ?_ ?_ ?_
  · rw [take_one_cons]
    exact h1
  · rw [take_two_cons]
    exact h2
  · rw [take_three_cons]
    simp [ws3Set, u1, u2, u3, u4, u5, u6, u7, u8, u9, u10, u11, u12, u13, u14, u15]

/-- No trailing White_Space character when the last byte ends none of
their encodings (the check runs on the reversed string). -/
theorem wsLeadRev_none_of_head (b : Nat) (r : List Nat)
    (hb : ¬ b ∈ ([9, 10, 11, 12, 13, 32, 128, 129, 130, 131, 132, 133, 134,
      135, 136, 137, 138, 159, 160, 168, 169, 175] : List Nat)) :
    wsLeadRev (b :: r) = none := by
  simp only [List.mem_cons, List.not_mem_nil, or_false, not_or] at hb
  obtain ⟨h9, h10, h11, h12, h13, h32, g128, g129, g130, g131, g132, g133, g134,
    g135, g136, g137, g138, g159, g160, g168, g169, g175⟩ := hb
  refine wsLeadRev_eq_none_of _ ?_ ?_ ?_
  · rw [take_one_cons]
    simp [ws1Set, h9, h10, h11, h12, h13, h32]
  · rw [take_two_cons_gen]
    simp [ws2RevSet, g133, g160]
  · rw [take_three_cons_gen]
    simp [ws3RevSet, ws3Set, g128, g129, g130, g131, g132, g133, g134, g135,
      g136, g137, g138, g159, g168, g169, g175]

/-- A key that does not start with a White_Space character keeps its
export line from starting with one: the bytes 61 and 34 that follow the
key complete no White_Space encoding. -/
theorem wsLead_line (k r : List Nat) (h : wsLead k = none) :
    wsLead (k ++ 61 :: 34 :: r) = none := by
  rcases k with _ | ⟨a, _ | ⟨b, _ | ⟨c, k'⟩⟩⟩
  · rw [List.nil_append]
    exact wsLead_none_of_head 61 (34 :: r) (by decide)
  · obtain ⟨c1, c2, c3⟩ := wsLead_none_parts [a] h
    rw [take_one_cons] at c1
    show wsLead (a :: 61 :: 34 :: r) = none
    exact wsLead_none_of_second a 61 (34 :: r) c1 (by decide)
  · obtain ⟨c1, c2, c3⟩ := wsLead_none_parts [a, b] h
    rw [take_one_cons] at c1
    rw [take_two_cons] at c2
    show wsLead (a :: b :: 61 :: 34 :: r) = none
    exact wsLead_none_of_third a b 61 (34 :: r) c1 c2 (by decide)
  · obtain ⟨c1, c2, c3⟩ := wsLead_none_parts (a :: b :: c :: k') h
    rw [take_one_cons] at c1
    rw [take_two_cons] at c2
    rw [take_three_cons] at c3
    show wsLead (a :: b :: c :: (k' ++ 61 :: 34 :: r)) = none
    refine wsLead_eq_none_of _ ?_ ?_ ?_
    · rw [take_one_cons]
      exact c1
    · rw [take_two_cons]
      exact c2
    · rw [take_three_cons]
      exact c3

/-- The fuelled stripper is the identity once the classifier rejects. -/
theorem stripWsFuel_eq_self (f : List Nat → Option Nat) (fuel : Nat) (l : List Nat)
    (h : f l = none) : stripWsFuel f fuel l = l := by
  cases fuel with
  | zero => rfl
  | succ n =>
    show (match f l with
      | none => l
      | some n' => stripWsFuel f n (l.drop n')) = l
    rw [h]

/-- Rust trim is the identity when the string neither starts nor ends
with a White_Space character. -/
theorem trimWs_eq_self (l : List Nat) (h1 : wsLead l = none)
    (h2 : wsLeadRev l.reverse = none) : trimWs l = l := by
  unfold trimWs trimStartWs trimEndWs
  rw [stripWsFuel_eq_self wsLead l.length l h1,
    stripWsFuel_eq_self wsLeadRev l.reverse.length l.reverse h2,
    List.reverse_reverse]

/-- Stripping one trailing copy of a byte that does not otherwise end the
list. -/
theorem trimRightP_concat_strip (c : Nat) (w : List Nat) (h : w.getLast? ≠ some c) :
    trimRightP (· == c) (w ++ [c]) = w := by
  unfold trimRightP
  rw [List.reverse_append, show ([c].reverse ++ w.reverse) = c :: w.reverse by simp,
    List.dropWhile_cons_of_pos (by simp),
    dropWhile_eq_self_of_head (· == c) w.reverse (fun x hx => by
      rw [List.head?_reverse] at hx
      have hxc : x ≠ c := fun he => h (he ▸ hx)
      simpa using hxc),
    List.reverse_reverse]

/-- The import's unquoting undoes the export's quoting for a value free of
double quotes that neither starts nor ends with a single quote. -/
theorem stripQuotes_wrap (v : List Nat) (h34 : ∀ b ∈ v, b ≠ 34)
    (h39h : v.head? ≠ some 39) (h39l : v.getLast? ≠ some 39) :
    stripQuotes (34 :: (v ++ [34])) = v := by
  have hchar : trimChar 34 (34 :: (v ++ [34])) = v := by
    unfold trimChar trimLeftP
    rw [List.dropWhile_cons_of_pos (by simp)]
    cases v with
    | nil =>
      rw [List.nil_append, List.dropWhile_cons_of_pos (by simp)]
      rfl
    | cons x v' =>
      have hdw : (x :: (v' ++ [34])).dropWhile (· == 34) = x :: (v' ++ [34]) :=
        dropWhile_eq_self_of_head (· == 34) (x :: (v' ++ [34])) fun y hy => by
          rw [List.head?_cons] at hy
          injection hy with hxy
          rw [← hxy]
          simpa using h34 x (List.mem_cons_self x v')
      rw [List.cons_append, hdw, ← List.cons_append]
      refine trimRightP_concat_strip 34 (x :: v') fun hcon => ?_
      exact h34 34 (List.mem_of_getLast?_eq_some hcon) rfl
  show trimChar 39 (trimChar 34 (34 :: (v ++ [34]))) = v
  rw [hchar]
  unfold trimChar trimLeftP
  rw [dropWhile_eq_self_of_head (· == 39) v (fun x hx => by
    have hxc : x ≠ 39 := fun he => h39h (he ▸ hx)
    simpa using hxc)]
  exact trimRightP_eq_self (· == 39) v fun x hx => by
    have hxc : x ≠ 39 := fun he => h39l (he ▸ hx)
    simpa using hxc

/-- Reading the conjuncts of exportSafeB as propositions. -/
theorem exportSafeB_spec (s : Secret) (h : exportSafeB s = true) :
    s.key ≠ [] ∧ s.key.head? ≠ some 35 ∧ (∀ b ∈ s.key, b ≠ 61 ∧ b ≠ 10) ∧
    wsLead s.key = none ∧ wsLeadRev s.key.reverse = none ∧
    (∀ b ∈ s.value, b ≠ 34 ∧ b ≠ 10) ∧
    s.value.head? ≠ some 39 ∧ s.value.getLast? ≠ some 39 := by
  unfold exportSafeB at h
  simp only [Bool.and_eq_true] at h
  obtain ⟨⟨⟨⟨⟨⟨⟨h1, h2⟩, h3⟩, h4⟩, h5⟩, h6⟩, h7⟩, h8⟩ := h
  refine ⟨?_, ?_, ?_, ?_, ?_, ?_, ?_, ?_⟩
  · intro hcon
    rw [hcon] at h1
    simp at h1
  · exact bne_iff_ne.mp h2
  · intro b hb
    have hball := List.all_eq_true.mp h3 b hb
    simp only [Bool.and_eq_true, bne_iff_ne] at hball
    exact hball
  · exact Option.isNone_iff_eq_none.mp h4
  · exact Option.isNone_iff_eq_none.mp h5
  · intro b hb
    have hball := List.all_eq_true.mp h6 b hb
    simp only [Bool.and_eq_true, bne_iff_ne] at hball
    exact hball
  · exact bne_iff_ne.mp h7
  · exact bne_iff_ne.mp h8

/-- Decoding one export line recovers exactly the exported key/value pair
for an exportSafe record. -/
theorem parseEnvLine_lineOf (s : Secret) (h : exportSafeB s = true) :
    parseEnvLine (lineOf s) = some (s.key, s.value) := by
  obtain ⟨hkne, hk35, hk6110, hwsl, hwsr, hv3410, hv39h, hv39l⟩ := exportSafeB_spec s h
  have hesc : escapeQuotes s.value = s.value :=
    escapeQuotes_eq_self s.value fun b hb => (hv3410 b hb).1
  obtain ⟨k0, kr, hk⟩ := List.exists_cons_of_ne_nil hkne
  have hLdef : lineOf s = s.key ++ 61 :: 34 :: (escapeQuotes s.value ++ [34]) := rfl
  have hhead : (lineOf s).head? = some k0 := by
    rw [hLdef, hk, List.cons_append, List.head?_cons]
  have htrim : trimWs (lineOf s) = lineOf s := by
    refine trimWs_eq_self _ ?_ ?_
    · show wsLead (s.key ++ 61 :: 34 :: (escapeQuotes s.value ++ [34])) = none
      exact wsLead_line s.key _ hwsl
    · have hsh : lineOf s = (s.key ++ 61 :: 34 :: escapeQuotes s.value) ++ [34] := by
        rw [hLdef]
        simp
      rw [hsh, List.reverse_append, List.reverse_singleton, List.singleton_append]
      exact wsLeadRev_none_of_head 34 _ (by decide)
  have hempty : ¬ ((lineOf s).isEmpty = true) := by
    rw [hLdef, hk, List.cons_append]
    simp
  have h35 : ¬ ((lineOf s).head? = some 35) := by
    rw [hhead]
    intro hcon
    injection hcon with hc0
    exact hk35 (by rw [hk, List.head?_cons, hc0])
  have hsplit : splitOnce 61 (lineOf s) =
      some (s.key, 34 :: (escapeQuotes s.value ++ [34])) := by
    rw [hLdef]
    exact splitOnce_append 61 s.key _ fun hm => (hk6110 61 hm).1 rfl
  have htrimk : trimWs s.key = s.key := trimWs_eq_self s.key hwsl hwsr
  have htrimv : trimWs (34 :: (escapeQuotes s.value ++ [34])) =
      34 :: (escapeQuotes s.value ++ [34]) := by
    refine trimWs_eq_self _ ?_ ?_
    · exact wsLead_none_of_head 34 _ (by decide)
    · rw [show (34 : Nat) :: (escapeQuotes s.value ++ [34]) =
        (34 :: escapeQuotes s.value) ++ [34] by simp, List.reverse_append,
        List.reverse_singleton, List.singleton_append]
      exact wsLeadRev_none_of_head 34 _ (by decide)
  have hstrip : stripQuotes (trimWs (34 :: (escapeQuotes s.value ++ [34]))) = s.value := by
    rw [htrimv, hesc]
    exact stripQuotes_wrap s.value (fun b hb => (hv3410 b hb).1) hv39h hv39l
  have hkempty : ¬ ((trimWs s.key).isEmpty = true) := by
    rw [htrimk, hk]
    simp
  unfold parseEnvLine
  simp only [htrim, hsplit, if_neg hempty, if_neg h35, if_neg hkempty, htrimk, hstrip]
  rw [if_neg (show ¬ (s.key.isEmpty = true) by rw [hk]; simp)]

/-- Re-importing the export lines of records with fresh, duplicate-free
keys appends their key/value pairs to the store in order. -/
theorem foldl_import_lines (now : Nat) (l : List Secret) :
    ∀ (db : DB) (n : Nat),
      (∀ s ∈ l, exportSafeB s = true) →
      ((l.map Secret.key).Nodup) →
      (∀ s ∈ l, s.key ∉ db.secrets.map Secret.key) →
      pairsOf (List.foldl (importStep now) (db, n) (l.map lineOf)).1 =
        pairsOf db ++ l.map fun s => (s.key, s.value) := by
  induction l with
  | nil =>
    intro db n _ _ _
    simp [pairsOf]
  | cons s l' ih =>
    intro db n hsafe hnd hdisj
    rw [List.map_cons, List.foldl_cons]
    have hstep : importStep now (db, n) (lineOf s) =
        (add_secret db s.key s.value now, n + 1) := by
      unfold importStep
      rw [parseEnvLine_lineOf s (hsafe s (List.mem_cons_self s l'))]
    rw [hstep]
    have hadd : (add_secret db s.key s.value now).secrets =
        db.secrets ++ [⟨db.next_id + 1, s.key, s.value, now, now⟩] := by
      unfold add_secret
      have hfil : (db.secrets.filter fun t => !(t.key == s.key)) = db.secrets := by
        refine List.filter_eq_self.mpr fun t ht => ?_
        have htne : t.key ≠ s.key := fun he =>
          hdisj s (List.mem_cons_self s l')
            (he ▸ List.mem_map_of_mem Secret.key ht)
        simp only [Bool.not_eq_eq_eq_not, Bool.not_true, beq_eq_false_iff_ne]
        exact htne
      rw [hfil]
    rw [List.map_cons] at hnd
    rw [ih (add_secret db s.key s.value now) (n + 1)
      (fun t ht => hsafe t (List.mem_cons_of_mem s ht))
      ((List.nodup_cons.mp hnd).2)
      (fun t ht => by
        rw [hadd, List.map_append]
        intro hmem
        rw [List.mem_append] at hmem
        cases hmem with
        | inl hm => exact hdisj t (List.mem_cons_of_mem s ht) hm
        | inr hm =>
          simp only [List.map_cons, List.map_nil, List.mem_singleton] at hm
          exact (List.nodup_cons.mp hnd).1 (hm ▸ List.mem_map_of_mem Secret.key ht))]
    rw [show pairsOf (add_secret db s.key s.value now) =
        pairsOf db ++ [(s.key, s.value)] by
      unfold pairsOf
      rw [hadd, List.map_append]
      rfl]
    rw [List.map_cons, List.append_assoc]
    rfl

/-- C6 (amended): for a store with duplicate-free keys whose records are
exportSafe — keys nonempty, no `=`, no newline, not `#`-led, not
whitespace-trimmed away; values free of `"` and newline and not
quote-wrapped by a single quote — decoding the text of
`export_to_env_string` into an empty store reproduces exactly the same
multiset of key/value pairs. -/
theorem export_import_roundtrip (db : DB) (now : Nat)
    (hnd : (db.secrets.map Secret.key).Nodup)
    (hsafe : ∀ s ∈ db.secrets, exportSafeB s = true) :
    List.Perm
      (pairsOf (import_from_env_string ⟨[], 0⟩ (export_to_env_string db) now).1)
      (pairsOf db) := by
  have hperm : List.Perm (sortByKey db.secrets) db.secrets :=
    List.perm_insertionSort _ _
  have hsafe' : ∀ s ∈ sortByKey db.secrets, exportSafeB s = true :=
    fun s hs => hsafe s (hperm.mem_iff.mp hs)
  have hlines : rustLines (export_to_env_string db) =
      (sortByKey db.secrets).map lineOf := by
    unfold export_to_env_string
    refine rustLines_joinNL _ ?_
    intro x hx
    obtain ⟨s, hs, rfl⟩ := List.mem_map.1 hx
    obtain ⟨hkne, _, hk6110, _, _, hv3410, _, _⟩ := exportSafeB_spec s (hsafe' s hs)
    have hesc : escapeQuotes s.value = s.value :=
      escapeQuotes_eq_self s.value fun b hb => (hv3410 b hb).1
    refine ⟨?_, ?_, ?_⟩
    · intro hmem
      rw [show lineOf s = s.key ++ 61 :: 34 :: (escapeQuotes s.value ++ [34]) from rfl,
        hesc] at hmem
      simp only [List.mem_append, List.mem_cons] at hmem
      rcases hmem with hm | hm | hm | hm
      · exact (hk6110 10 hm).2 rfl
      · exact absurd hm (by decide)
      · exact absurd hm (by decide)
      · rcases hm with hm2 | hm2 | hm2
        · exact (hv3410 10 hm2).2 rfl
        · exact absurd hm2 (by decide)
        · exact absurd hm2 (List.not_mem_nil 10)
    · obtain ⟨k0, kr, hk⟩ := List.exists_cons_of_ne_nil hkne
      rw [show lineOf s = s.key ++ 61 :: 34 :: (escapeQuotes s.value ++ [34]) from rfl,
        hk, List.cons_append]
      simp
    · rw [show lineOf s = s.key ++ 61 :: 34 :: (escapeQuotes s.value ++ [34]) from rfl,
        hesc,
        show s.key ++ 61 :: 34 :: (s.value ++ [34]) =
          (s.key ++ 61 :: 34 :: s.value) ++ [34] by simp,
        List.getLast?_concat]
      simp
  unfold import_from_env_string
  rw [hlines]
  rw [foldl_import_lines now (sortByKey db.secrets) ⟨[], 0⟩ 0 hsafe'
    ((hperm.map Secret.key).nodup_iff.mpr hnd)
    (fun t _ => by
      show t.key ∉ List.map Secret.key []
      simp)]
  rw [show pairsOf ⟨[], 0⟩ = [] from rfl, List.nil_append]
  exact hperm.map fun s => (s.key, s.value)

/-- Witness for C6's amended statement on a concrete two-record store. -/
theorem export_import_roundtrip_witness :
    List.Perm
      (pairsOf (import_from_env_string ⟨[], 0⟩
        (export_to_env_string ⟨[⟨1, asciiBytes "B", asciiBytes "2", 0, 0⟩,
          ⟨2, asciiBytes "A", asciiBytes "1", 0, 0⟩], 2⟩) 9).1)
      (pairsOf ⟨[⟨1, asciiBytes "B", asciiBytes "2", 0, 0⟩,
          ⟨2, asciiBytes "A", asciiBytes "1", 0, 0⟩], 2⟩) :=
  export_import_roundtrip ⟨[⟨1, asciiBytes "B", asciiBytes "2", 0, 0⟩,
      ⟨2, asciiBytes "A", asciiBytes "1", 0, 0⟩], 2⟩ 9 (by decide) (by decide)
